import Mathlib

/-!
# Occam.Fi index-price printer (`cmd/main.go`)

A shallow embedding of `checkTime` and of the merge loop of `main`, together with
the part of Go's `time` package these two call (`Minute`, `Hour`, `Day`, `Month`,
`Year`, `Unix`, `Date`, with the zone lookup behind them), the rendering of `%.2f`, and
a step relation for the goroutines that feed the loop.
-/

namespace OccamFi

/-! ## The `time` package: zones, wall clock values and the civil calendar -/

/-- A `*time.Location`: the offset, in seconds east of UTC, in effect before the first
transition of the zone, and the transitions in ascending order of their instant, each
with the offset in effect from that instant on. Zone names, the daylight flag and the
rule for instants past the last transition of the table are left out. -/
structure Location where
  first : Int
  tx : List (Int × Int)
deriving DecidableEq, Repr

/-- `time.FixedZone`: a zone that always uses the given offset. -/
def FixedZone (offset : Int) : Location := ⟨offset, []⟩

/-- The zone `time.UTC`. -/
def utc : Location := FixedZone 0

/-- The zone America/New_York with its two transitions of 2019: to daylight time,
four hours west of UTC, on March 10 at 07:00 UTC, and back to standard time, five hours
west, on November 3 at 06:00 UTC. -/
def newYork2019 : Location :=
  ⟨-18000, [(1552201200, -14400), (1572760800, -18000)]⟩

/-- The beginning of time for `lookup`, `-1 << 63`. -/
def timeAlpha : Int := -9223372036854775808

/-- The end of time for `lookup`, `1<<63 - 1`. -/
def timeOmega : Int := 9223372036854775807

/-- The search of `Location.lookup` for the transition with the largest instant at or
before `sec`, `offset` being in effect since `start`. Go searches the sorted table by
bisection; the scan from the left finds the same entry. -/
def lookupFrom (offset start : Int) : List (Int × Int) → Int → Int × Int × Int
  | [], _ => (offset, start, timeOmega)
  | (w, off) :: rest, sec =>
    if sec < w then (offset, start, w) else lookupFrom off w rest sec

/-- `Location.lookup`: the offset in use at the instant `sec`, with the bounds `start`
and `end` of the span of instants over which that offset is in effect. -/
def Location.lookup (l : Location) (sec : Int) : Int × Int × Int :=
  lookupFrom l.first timeAlpha l.tx sec

/-- A `time.Time`: seconds since 1970-01-01T00:00:00Z, nanoseconds within the second,
and the location in which the value is displayed. -/
structure Time where
  unix : Int
  nsec : Nat
  loc : Location
deriving DecidableEq, Repr

def secondsPerMinute : Int := 60
def secondsPerHour : Int := 3600
def secondsPerDay : Int := 86400
def daysPer400Years : Int := 146097
def daysPer100Years : Int := 36524
def daysPer4Years : Int := 1461

/-- Days from January 1 of year 1 to January 1 of year 1970
(`1969*365 + 1969/4 - 1969/100 + 1969/400`). -/
def unixToAbsoluteDays : Int := 719162

/-- `Time.abs`: seconds of local wall time since January 1 of year 1, the offset being
the one that the location uses at the instant of `t`. Go counts from a year that is 1
modulo 400 far in the past so that the count fits an unsigned word; with floor division
on `Int` the year 1 serves the same purpose. -/
def Time.abs (t : Time) : Int :=
  t.unix + (t.loc.lookup t.unix).1 + unixToAbsoluteDays * secondsPerDay

/-- `Time.Unix`. -/
def Time.Unix (t : Time) : Int := t.unix

/-- `Time.Second`. -/
def Time.Second (t : Time) : Int := t.abs % secondsPerMinute

/-- `Time.Minute`: the minute offset within the hour, in `[0, 59]`. -/
def Time.Minute (t : Time) : Int := (t.abs % secondsPerHour) / secondsPerMinute

/-- `Time.Hour`: the hour within the day, in `[0, 23]`. -/
def Time.Hour (t : Time) : Int := (t.abs % secondsPerDay) / secondsPerHour

/-- `isLeap`. -/
def isLeap (year : Int) : Bool :=
  year % 4 == 0 && (year % 100 != 0 || year % 400 == 0)

/-- `daysBefore[m]`: the number of days in a non-leap year before month `m+1` begins. -/
def daysBefore (m : Int) : Int :=
  if m = 0 then 0
  else if m = 1 then 31
  else if m = 2 then 59
  else if m = 3 then 90
  else if m = 4 then 120
  else if m = 5 then 151
  else if m = 6 then 181
  else if m = 7 then 212
  else if m = 8 then 243
  else if m = 9 then 273
  else if m = 10 then 304
  else if m = 11 then 334
  else 365

/-- The year part of `absDate`: from a day count since January 1 of year 1, the year
and the zero-based day within that year. -/
def absYearDay (d : Int) : Int × Int :=
  -- Account for 400 year cycles.
  let n400 := d / daysPer400Years
  let d1 := d - daysPer400Years * n400
  -- Cut off 100-year cycles. The last cycle has one extra leap year, so on the
  -- last day of that year, day / daysPer100Years will be 4 instead of 3.
  let n100 := d1 / daysPer100Years
  let n100 := n100 - n100 / 4
  let d2 := d1 - daysPer100Years * n100
  -- Cut off 4-year cycles.
  let n4 := d2 / daysPer4Years
  let d3 := d2 - daysPer4Years * n4
  -- Cut off years within a 4-year cycle.
  let n1 := d3 / 365
  let n1 := n1 - n1 / 4
  let d4 := d3 - 365 * n1
  (400 * n400 + 100 * n100 + 4 * n4 + n1 + 1, d4)

/-- The tail of `absDate`: month and day of month from the zero-based day of a year
whose leap day, if any, has been taken out. -/
def monthEstimate (day : Int) : Int × Int :=
  -- Estimate month on assumption that every month has 31 days.
  -- The estimate may be too low by at most one month, so adjust.
  let month := day / 31
  let endd := daysBefore (month + 1)
  if day ≥ endd then (month + 1 + 1, day - endd + 1)
  else (month + 1, day - daysBefore month + 1)

/-- The month part of `absDate`: month and day of month from the zero-based day of the
year. -/
def absMonthDay (year yday : Int) : Int × Int :=
  if isLeap year && yday == 31 + 29 - 1 then
    -- Leap day.
    (2, 29)
  else if isLeap year && yday > 31 + 29 - 1 then
    -- After leap day; pretend it wasn't there.
    monthEstimate (yday - 1)
  else
    monthEstimate yday

/-- `Time.Year`. -/
def Time.Year (t : Time) : Int := (absYearDay (t.abs / secondsPerDay)).1

/-- `Time.Month`. -/
def Time.Month (t : Time) : Int :=
  let yd := absYearDay (t.abs / secondsPerDay)
  (absMonthDay yd.1 yd.2).1

/-- `Time.Day`. -/
def Time.Day (t : Time) : Int :=
  let yd := absYearDay (t.abs / secondsPerDay)
  (absMonthDay yd.1 yd.2).2

/-- `Time.Location`. -/
def Time.Location (t : Time) : Location := t.loc

/-- `norm`: a new `hi, lo` with `hi*base + lo` unchanged and `0 ≤ lo < base`. -/
def norm (hi lo base : Int) : Int × Int :=
  let (hi, lo) :=
    if lo < 0 then
      let n := (-lo - 1) / base + 1
      (hi - n, lo + n * base)
    else (hi, lo)
  if lo ≥ base then
    let n := lo / base
    (hi + n, lo - n * base)
  else (hi, lo)

/-- `daysSinceEpoch`: days from January 1 of year 1 to January 1 of `year`. -/
def daysSinceEpoch (year : Int) : Int :=
  let y := year - 1
  -- Add in days from 400-year cycles.
  let n := y / 400
  let y := y - 400 * n
  let d := daysPer400Years * n
  -- Add in 100-year cycles.
  let n := y / 100
  let y := y - 100 * n
  let d := d + daysPer100Years * n
  -- Add in 4-year cycles.
  let n := y / 4
  let y := y - 4 * n
  let d := d + daysPer4Years * n
  -- Add in non-leap years.
  d + 365 * y

/-- The end of `time.Date`: from the seconds `unix` that the civil fields would make in
UTC, the instant they denote in `loc`. -/
def unixOfLocal (loc : Location) (unix : Int) : Int :=
  -- Look for zone offset for expected time, so we can adjust to UTC.
  -- The lookup function expects UTC, so first we pass unix in the
  -- hope that it will not be too close to a zone transition,
  -- and then adjust if it is.
  let (offset, start, endd) := loc.lookup unix
  if offset ≠ 0 then
    let utc := unix - offset
    -- If utc is valid for the time zone we found, then we have the right offset.
    -- If not, we get the correct offset by looking up utc in the location.
    let offset := if utc < start ∨ utc ≥ endd then (loc.lookup utc).1 else offset
    unix - offset
  else unix

/-- `time.Date`: the time of the given civil fields in `loc`. -/
def Date (year month day hour min sec nsec : Int) (loc : Location) : Time :=
  -- Normalize month, overflowing into year.
  let (year, m) := norm year (month - 1) 12
  let month := m + 1
  -- Normalize nsec, sec, min, hour, overflowing into day.
  let (sec, nsec) := norm sec nsec 1000000000
  let (min, sec) := norm min sec 60
  let (hour, min) := norm hour min 60
  let (day, hour) := norm day hour 24
  -- Compute days since the absolute epoch.
  let d := daysSinceEpoch year
  -- Add in days before this month.
  let d := d + daysBefore (month - 1)
  let d := if isLeap year && month ≥ 3 then d + 1 else d
  -- Add in days before today.
  let d := d + (day - 1)
  -- Add in time elapsed today.
  let abs := d * secondsPerDay + (hour * secondsPerHour + min * secondsPerMinute + sec)
  let unix := abs - unixToAbsoluteDays * secondsPerDay
  ⟨unixOfLocal loc unix, nsec.toNat, loc⟩

/-! ## `cmd/main.go` -/

/-- The text that the verb `%.2f` writes for a number: a minus sign if the number is
negative, then the digits with two decimals, kept as the number of hundredths that
they spell. -/
structure Decimal2 where
  minus : Bool
  hundredths : Nat
deriving DecidableEq, Repr

/-- The verb `%.2f` on a `float64` that is a number, given by its exact value: the value
is rounded to the nearest hundredth, a tie going to the even one, so that 100.125 is
written `100.12`. -/
def twoDecimals (x : ℚ) : Decimal2 :=
  let n := x.num.natAbs * 100
  let q := n / x.den
  let r := n % x.den
  let up := decide (x.den < 2 * r) || (2 * r == x.den && q % 2 == 1)
  ⟨decide (x.num < 0), if up then q + 1 else q⟩

/-- One line written by `fmt.Printf("%d %.2f\n", rounded.Unix(), val)`: the timestamp
and the price as `%.2f` renders it. -/
structure Bar (β : Type) where
  minuteStart : Int
  price : β
deriving DecidableEq, Repr

/-- `checkTime(t, val)`, with the value `newTime` that its call of `time.Now()` yields
as a further argument, and the lines it prints as a further result. The rendering of
`val` by the verb `%.2f` is the argument `fmt2f`. -/
def checkTime {α β : Type} (fmt2f : α → β) (newTime : Time) (t : Time) (val : α) :
    List (Bar β) × Time :=
  if newTime.Minute = t.Minute then
    let rounded := Date t.Year t.Month t.Day t.Hour t.Minute 0 0 t.Location
    ([⟨rounded.Unix, fmt2f val⟩], newTime)
  else
    ([], t)

/-- A reading of the wall clock: seconds since 1970-01-01T00:00:00Z and nanoseconds. -/
structure Clock where
  sec : Int
  nsec : Nat
deriving DecidableEq, Repr

/-- `time.Now()` in a process whose local zone is `loc`, when the wall clock reads `c`. -/
def timeNow (loc : Location) (c : Clock) : Time := ⟨c.sec, c.nsec, loc⟩

/-- What one pass through the body of the merge loop meets: the clock read by
`lastTime := time.Now()`, and then either a price taken from `agg` (by the first or by
the second `select`) together with the clock read inside `checkTime`, or a signal taken
from `done`. -/
inductive Event (α : Type) where
  | price (lastTime newTime : Clock) (msg : α)
  | done (lastTime : Clock)
deriving DecidableEq, Repr

/-- The outcome of the merge loop on a sequence of events: the lines printed, the final
`doneCount`, and the events the loop consumed before it stopped. -/
structure Run (α β : Type) where
  bars : List (Bar β)
  doneCount : Nat
  seen : List (Event α)
deriving DecidableEq, Repr

/-- The merge loop of `main`, `for doneCount < len(streams) { ... }`, run from `doneCount`
on the events it meets. `lastTime` is declared anew in every pass, so the value that
`checkTime` returns is assigned and never read; the loop carries `doneCount` alone. With
no event left the loop waits in its second `select`. -/
def mainLoop {α β : Type} (fmt2f : α → β) (loc : Location) (streams : Nat)
    (doneCount : Nat) : List (Event α) → Run α β
  | [] => ⟨[], doneCount, []⟩
  | e :: es =>
    if doneCount < streams then
      match e with
      | .price l n msg =>
        let lastTime := timeNow loc l
        let r := checkTime fmt2f (timeNow loc n) lastTime msg
        let run := mainLoop fmt2f loc streams doneCount es
        { run with bars := r.1 ++ run.bars, seen := e :: run.seen }
      | .done _ =>
        let run := mainLoop fmt2f loc streams (doneCount + 1) es
        { run with seen := e :: run.seen }
    else ⟨[], doneCount, []⟩

/-- The lines `main` prints: the loop starts with `doneCount := 0`. -/
def printed {α β : Type} (fmt2f : α → β) (loc : Location) (streams : Nat)
    (evs : List (Event α)) : List (Bar β) :=
  (mainLoop fmt2f loc streams 0 evs).bars

/-- The clock reading with which a pass through the loop body begins. -/
def Event.lastTime {α : Type} : Event α → Clock
  | .price l _ _ => l
  | .done l => l

/-- Whether the event is a signal from `done`. -/
def Event.isDone {α : Type} : Event α → Bool
  | .price _ _ _ => false
  | .done _ => true

/-- The start of the minute in which the wall clock reads `c`, in a process whose local
zone is `loc`: the clock less the seconds that `time.Now().Second()` would show. -/
def minuteOf (loc : Location) (c : Clock) : Int :=
  c.sec - (timeNow loc c).Second

/-! ## The goroutines of `main` -/

/-- Where a forwarding goroutine `go func(c MockCh) { ... }(s)` stands. -/
inductive Forwarder (α : Type) where
  /-- At `for msg := range c`, about to take the next value of `c`. -/
  | ranging
  /-- Holding `msg`, about to run `agg <- msg`. -/
  | holding (msg : α)
  /-- Out of the `range` loop, at `done <- struct{}{}`. -/
  | signalling
  /-- Its signal has been taken from `done`. -/
  | finished
deriving DecidableEq, Repr

/-- One mock stream, its channel and its forwarding goroutine. -/
structure Stream (α : Type) where
  /-- The prices that `start` has yet to send, one for each turn left of its loop. -/
  toSend : List α
  /-- Whether the deferred `close(m)` of `start` has run. -/
  closed : Bool
  /-- The content of the channel, `make(chan float64, 10)`. -/
  buf : List α
  fwd : Forwarder α
deriving DecidableEq, Repr

/-- Where the goroutine of `main` stands in its loop. -/
inductive MainPc where
  /-- At the loop condition, before `lastTime := time.Now()` and the first `select`. -/
  | top
  /-- Past the `default` of the first `select`, at or in the second `select`. -/
  | second
  /-- Out of the loop. -/
  | exited
deriving DecidableEq, Repr

/-- The state shared by the goroutines. -/
structure Sys (α : Type) where
  streams : List (Stream α)
  /-- The content of `agg`, `make(chan float64, 100)`. -/
  agg : List α
  pc : MainPc
  doneCount : Nat
  /-- The prices the loop has taken from `agg` and passed to `checkTime`, in order. -/
  received : List α
deriving DecidableEq, Repr

/-- The channel operations of the goroutines, one step each. -/
inductive Step where
  /-- `m <- price` in `start` of stream `i`. -/
  | streamSend (i : Nat)
  /-- `close(m)` when `start` of stream `i` returns. -/
  | streamClose (i : Nat)
  /-- `msg := range c` takes a value in forwarder `i`. -/
  | fwdRecv (i : Nat)
  /-- `range c` ends in forwarder `i`: the channel is closed and empty. -/
  | fwdExit (i : Nat)
  /-- `agg <- msg` in forwarder `i`. -/
  | fwdSend (i : Nat)
  /-- The loop condition and the first `select` of `main`. -/
  | mainTop
  /-- The second `select` of `main` takes `case msg := <-agg`. -/
  | mainAgg
  /-- The second `select` of `main` takes `case <-done`, meeting the send of forwarder `i`. -/
  | mainDone (i : Nat)
deriving DecidableEq, Repr

/-- One step of the system, `none` when the operation cannot proceed in state `s`.
A `select` with several cases ready takes any one of them: in the second `select`, both
`mainAgg` and `mainDone` can proceed when `agg` holds a value and a forwarder stands at
its send on the unbuffered `done`. -/
def step {α : Type} (s : Sys α) : Step → Option (Sys α)
  | .streamSend i =>
    match s.streams[i]? with
    | some st =>
      match st.toSend with
      | p :: rest =>
        if st.buf.length < 10 then
          some { s with streams := s.streams.set i { st with toSend := rest, buf := st.buf ++ [p] } }
        else none
      | [] => none
    | none => none
  | .streamClose i =>
    match s.streams[i]? with
    | some st =>
      if st.toSend.isEmpty && !st.closed then
        some { s with streams := s.streams.set i { st with closed := true } }
      else none
    | none => none
  | .fwdRecv i =>
    match s.streams[i]? with
    | some st =>
      match st.fwd, st.buf with
      | .ranging, m :: rest =>
        some { s with streams := s.streams.set i { st with buf := rest, fwd := .holding m } }
      | _, _ => none
    | none => none
  | .fwdExit i =>
    match s.streams[i]? with
    | some st =>
      match st.fwd, st.buf with
      | .ranging, [] =>
        if st.closed then
          some { s with streams := s.streams.set i { st with fwd := .signalling } }
        else none
      | _, _ => none
    | none => none
  | .fwdSend i =>
    match s.streams[i]? with
    | some st =>
      match st.fwd with
      | .holding m =>
        if s.agg.length < 100 then
          some { s with streams := s.streams.set i { st with fwd := .ranging },
                        agg := s.agg ++ [m] }
        else none
      | _ => none
    | none => none
  | .mainTop =>
    match s.pc with
    | .top =>
      if s.doneCount < s.streams.length then
        match s.agg with
        | msg :: rest =>
          -- case msg := <-agg: lastTime = checkTime(lastTime, msg); continue
          some { s with agg := rest, received := s.received ++ [msg] }
        | [] =>
          -- default:
          some { s with pc := .second }
      else some { s with pc := .exited }
    | _ => none
  | .mainAgg =>
    match s.pc, s.agg with
    | .second, msg :: rest =>
      some { s with agg := rest, received := s.received ++ [msg], pc := .top }
    | _, _ => none
  | .mainDone i =>
    match s.pc, s.streams[i]? with
    | .second, some st =>
      match st.fwd with
      | .signalling =>
        some { s with streams := s.streams.set i { st with fwd := .finished },
                      doneCount := s.doneCount + 1, pc := .top }
      | _ => none
    | _, _ => none

/-- A schedule run from `s`: `none` when one of its steps cannot proceed. -/
def exec {α : Type} (s : Sys α) : List Step → Option (Sys α)
  | [] => some s
  | a :: rest =>
    match step s a with
    | some s' => exec s' rest
    | none => none

/-- The state in which `main` enters its loop: stream `i` is to send the prices
`prices[i]` (the method `start` draws between 1 and 1000 of them at random), every
channel is empty, `doneCount` is 0. -/
def initSys {α : Type} (prices : List (List α)) : Sys α :=
  { streams := prices.map fun ps => ⟨ps, false, [], .ranging⟩
    agg := []
    pc := .top
    doneCount := 0
    received := [] }

/-! ### Facts about the calendar -/

/-- The shape of a day count as `absYearDay` cuts it: whole 400-year cycles, up to three
centuries, up to 24 four-year cycles, up to three years, and the rest. -/
theorem absYearDay_eq (d : Int) :
    ∃ f c j k r : Int,
      absYearDay d = (400 * f + 100 * c + 4 * j + k + 1, r) ∧
      d = 146097 * f + 36524 * c + 1461 * j + 365 * k + r ∧
      0 ≤ c ∧ c ≤ 3 ∧ 0 ≤ j ∧ j ≤ 24 ∧ 0 ≤ k ∧ k ≤ 3 ∧ 0 ≤ r ∧ r ≤ 365 ∧
      (r = 365 → k = 3 ∧ (j < 24 ∨ c = 3)) := by
  simp only [absYearDay, daysPer400Years, daysPer100Years, daysPer4Years]
  generalize hf : d / 146097 = f
  have h1 : 0 ≤ d - 146097 * f ∧ d - 146097 * f ≤ 146096 := by omega
  generalize hd1 : d - 146097 * f = d1 at h1 ⊢
  generalize hg : d1 / 36524 = g
  have h2 : 0 ≤ g ∧ g ≤ 4 := by omega
  generalize hc : g - g / 4 = c
  have h3 : 0 ≤ c ∧ c ≤ 3 ∧ (g = 4 → c = 3) ∧ (g < 4 → c = g) := by omega
  have h4 : 0 ≤ d1 - 36524 * c ∧ d1 - 36524 * c ≤ 36524 := by omega
  generalize hd2 : d1 - 36524 * c = d2 at h4 ⊢
  generalize hj : d2 / 1461 = j
  have h5 : 0 ≤ j ∧ j ≤ 24 := by omega
  have h6 : 0 ≤ d2 - 1461 * j ∧ d2 - 1461 * j ≤ 1460 := by omega
  generalize hd3 : d2 - 1461 * j = d3 at h6 ⊢
  generalize hk : d3 / 365 = n
  have h7 : 0 ≤ n ∧ n ≤ 4 := by omega
  generalize hk2 : n - n / 4 = k
  have h8 : 0 ≤ k ∧ k ≤ 3 ∧ (n = 4 → k = 3) ∧ (n < 4 → k = n) := by omega
  refine ⟨f, c, j, k, d3 - 365 * k, rfl, by omega, by omega, by omega, by omega, by omega,
    by omega, by omega, by omega, by omega, ?_⟩
  intro hr
  omega

/-- The day count of January 1 of a year given in the shape of `absYearDay_eq`. -/
theorem daysSinceEpoch_eq (f c j k : Int) (hc : 0 ≤ c ∧ c ≤ 3) (hj : 0 ≤ j ∧ j ≤ 24)
    (hk : 0 ≤ k ∧ k ≤ 3) :
    daysSinceEpoch (400 * f + 100 * c + 4 * j + k + 1)
      = 146097 * f + 36524 * c + 1461 * j + 365 * k := by
  simp only [daysSinceEpoch, daysPer400Years, daysPer100Years, daysPer4Years]
  have e1 : (400 * f + 100 * c + 4 * j + k + 1 - 1) / 400 = f := by omega
  rw [e1]
  have e2 : (400 * f + 100 * c + 4 * j + k + 1 - 1 - 400 * f) / 100 = c := by omega
  rw [e2]
  have e3 : (400 * f + 100 * c + 4 * j + k + 1 - 1 - 400 * f - 100 * c) / 4 = j := by omega
  rw [e3]
  omega

/-- Leap years in the shape of `absYearDay_eq`: the last year of a four-year cycle,
unless it closes a century that does not close a 400-year cycle. -/
theorem isLeap_eq (f c j k : Int) (hc : 0 ≤ c ∧ c ≤ 3) (hj : 0 ≤ j ∧ j ≤ 24)
    (hk : 0 ≤ k ∧ k ≤ 3) :
    isLeap (400 * f + 100 * c + 4 * j + k + 1) = true ↔ k = 3 ∧ (j < 24 ∨ c = 3) := by
  simp only [isLeap, Bool.and_eq_true, Bool.or_eq_true, beq_iff_eq, bne_iff_ne, ne_eq]
  omega

theorem daysSinceEpoch_absYearDay (d : Int) :
    daysSinceEpoch (absYearDay d).1 + (absYearDay d).2 = d := by
  obtain ⟨f, c, j, k, r, h, hd, hc0, hc3, hj0, hj24, hk0, hk3, -⟩ := absYearDay_eq d
  rw [h]
  simp only
  rw [daysSinceEpoch_eq f c j k ⟨hc0, hc3⟩ ⟨hj0, hj24⟩ ⟨hk0, hk3⟩]
  omega

/-- The day of the year that `absYearDay` returns lies within the year. -/
theorem absYearDay_yday (d : Int) :
    0 ≤ (absYearDay d).2 ∧
      (absYearDay d).2 < (if isLeap (absYearDay d).1 then 366 else 365) := by
  obtain ⟨f, c, j, k, r, h, hd, hc0, hc3, hj0, hj24, hk0, hk3, hr0, hr, hleap⟩ :=
    absYearDay_eq d
  have hl := isLeap_eq f c j k ⟨hc0, hc3⟩ ⟨hj0, hj24⟩ ⟨hk0, hk3⟩
  rw [h]
  simp only
  refine ⟨hr0, ?_⟩
  split_ifs with hlp
  · omega
  · have : ¬ (k = 3 ∧ (j < 24 ∨ c = 3)) := fun hh => hlp (hl.2 hh)
    omega

theorem daysBefore_vals :
    daysBefore 0 = 0 ∧ daysBefore 1 = 31 ∧ daysBefore 2 = 59 ∧ daysBefore 3 = 90 ∧
    daysBefore 4 = 120 ∧ daysBefore 5 = 151 ∧ daysBefore 6 = 181 ∧ daysBefore 7 = 212 ∧
    daysBefore 8 = 243 ∧ daysBefore 9 = 273 ∧ daysBefore 10 = 304 ∧ daysBefore 11 = 334 ∧
    daysBefore 12 = 365 := by
  decide

/-- The month estimate is right on every day of a 365-day year. -/
theorem monthEstimate_eq (day : Int) (h : 0 ≤ day ∧ day < 365) :
    1 ≤ (monthEstimate day).1 ∧ (monthEstimate day).1 ≤ 12 ∧
    daysBefore ((monthEstimate day).1 - 1) + ((monthEstimate day).2 - 1) = day ∧
    ((monthEstimate day).1 ≥ 3 ↔ day ≥ 59) := by
  obtain ⟨v0, v1, v2, v3, v4, v5, v6, v7, v8, v9, v10, v11, v12⟩ := daysBefore_vals
  unfold monthEstimate
  generalize hm : day / 31 = m
  have hm0 : 0 ≤ m ∧ m ≤ 11 := by omega
  obtain ⟨hm0, hm11⟩ := hm0
  interval_cases m <;>
    simp only [Int.reduceAdd, v0, v1, v2, v3, v4, v5, v6, v7, v8, v9, v10, v11, v12] <;>
    split_ifs <;>
    simp only [Int.reduceAdd, Int.reduceSub, v0, v1, v2, v3, v4, v5, v6, v7, v8, v9, v10, v11,
      v12] <;>
    omega

/-- Month and day of month from `absMonthDay` add up to the day of the year again, the
way `Date` adds them. -/
theorem absMonthDay_eq (year yday : Int)
    (h : 0 ≤ yday ∧ yday < (if isLeap year then 366 else 365)) :
    1 ≤ (absMonthDay year yday).1 ∧ (absMonthDay year yday).1 ≤ 12 ∧
    daysBefore ((absMonthDay year yday).1 - 1)
      + (if isLeap year && decide ((absMonthDay year yday).1 ≥ 3) then 1 else 0)
      + ((absMonthDay year yday).2 - 1) = yday := by
  obtain ⟨v0, v1, -⟩ := daysBefore_vals
  unfold absMonthDay
  cases hl : isLeap year
  · simp only [hl, Bool.false_and, Bool.false_eq_true, if_false] at h ⊢
    obtain ⟨a, b, c, -⟩ := monthEstimate_eq yday h
    exact ⟨a, b, by omega⟩
  · simp only [hl, Bool.true_and, if_true] at h ⊢
    by_cases h59 : yday = 59
    · subst h59
      simp [v1]
    · have hb : (yday == 31 + 29 - 1) = false := by simpa using h59
      simp only [hb, Bool.false_eq_true, if_false, decide_eq_true_eq]
      by_cases hgt : yday > 31 + 29 - 1
      · simp only [hgt, if_true]
        obtain ⟨a, b, c, e⟩ := monthEstimate_eq (yday - 1) (by omega)
        have h3 : (monthEstimate (yday - 1)).1 ≥ 3 := e.2 (by omega)
        simp only [h3, if_true]
        exact ⟨a, b, by omega⟩
      · simp only [hgt, if_false]
        obtain ⟨a, b, c, e⟩ := monthEstimate_eq yday (by omega)
        have h3 : ¬ (monthEstimate yday).1 ≥ 3 := fun hh => by have := e.1 hh; omega
        simp only [h3, if_false]
        exact ⟨a, b, by omega⟩

/-- `norm` leaves a pair alone whose low part is within the base. -/
theorem norm_of_lt (hi lo base : Int) (h0 : 0 ≤ lo) (h1 : lo < base) :
    norm hi lo base = (hi, lo) := by
  simp only [norm]
  have e0 : ¬ lo < 0 := by omega
  have e1 : ¬ lo ≥ base := by omega
  simp only [e0, if_false, e1]

/-- A zone without transitions uses its one offset at every instant. -/
theorem lookup_fixed (loc : Location) (h : loc.tx = []) (sec : Int) :
    loc.lookup sec = (loc.first, timeAlpha, timeOmega) := by
  simp only [Location.lookup, h, lookupFrom]

/-- In a zone without transitions the wall time is the instant moved by the offset. -/
theorem abs_fixed (t : Time) (h : t.loc.tx = []) :
    t.abs = t.unix + t.loc.first + unixToAbsoluteDays * secondsPerDay := by
  simp only [Time.abs, lookup_fixed t.loc h]

/-- In a zone without transitions `Date` takes the offset off. -/
theorem unixOfLocal_fixed (loc : Location) (h : loc.tx = []) (unix : Int) :
    unixOfLocal loc unix = unix - loc.first := by
  simp only [unixOfLocal, lookup_fixed loc h]
  split_ifs with h0 h1
  · rfl
  · rfl
  · have : loc.first = 0 := by simpa using h0
    omega

/-- `Date` put together from the year, month, day, hour and minute of `t`, with no
seconds, is, in a zone without transitions, `t` less its seconds: the start of the
minute of `t` in its own zone. -/
theorem Date_fields (t : Time) (hz : t.loc.tx = []) :
    Date t.Year t.Month t.Day t.Hour t.Minute 0 0 t.Location
      = ⟨t.unix - t.Second, 0, t.loc⟩ := by
  have hy := daysSinceEpoch_absYearDay (t.abs / secondsPerDay)
  have hyd := absYearDay_yday (t.abs / secondsPerDay)
  obtain ⟨hm1, hm12, hmd⟩ := absMonthDay_eq _ _ hyd
  have hH : 0 ≤ t.Hour ∧ t.Hour < 24 := by
    simp only [Time.Hour, secondsPerDay, secondsPerHour]; omega
  have hM : 0 ≤ t.Minute ∧ t.Minute < 60 := by
    simp only [Time.Minute, secondsPerMinute, secondsPerHour]; omega
  have hHMS : (t.abs / secondsPerDay) * secondsPerDay
      + (t.Hour * secondsPerHour + t.Minute * secondsPerMinute + 0) = t.abs - t.Second := by
    simp only [Time.Hour, Time.Minute, Time.Second, secondsPerDay, secondsPerHour,
      secondsPerMinute]
    omega
  have habs : t.abs - unixToAbsoluteDays * secondsPerDay - t.loc.first = t.unix := by
    rw [abs_fixed t hz]; omega
  have hmo : 0 ≤ t.Month - 1 ∧ t.Month - 1 < 12 := by
    simp only [Time.Month]; omega
  have hD : (if (isLeap t.Year && decide (t.Month - 1 + 1 ≥ 3)) = true then
        daysSinceEpoch t.Year + daysBefore (t.Month - 1 + 1 - 1) + 1
      else daysSinceEpoch t.Year + daysBefore (t.Month - 1 + 1 - 1)) + (t.Day - 1)
      = t.abs / secondsPerDay := by
    have e : t.Month - 1 + 1 = t.Month := by omega
    rw [e]
    simp only [Time.Year, Time.Month, Time.Day]
    split_ifs at hmd ⊢ <;> omega
  unfold Date
  rw [norm_of_lt t.Year (t.Month - 1) 12 hmo.1 hmo.2]
  simp only
  rw [norm_of_lt 0 0 1000000000 (by omega) (by omega)]
  simp only
  rw [norm_of_lt t.Minute 0 60 (by omega) (by omega)]
  simp only
  rw [norm_of_lt t.Hour t.Minute 60 hM.1 hM.2]
  simp only
  rw [norm_of_lt t.Day t.Hour 24 hH.1 hH.2]
  simp only [Int.toNat_zero, Time.mk.injEq, and_true, Time.Location]
  rw [unixOfLocal_fixed t.loc hz, hD, hHMS]
  omega

/-! ### Facts about `checkTime` and the merge loop -/

/-- What `checkTime` does for a time in a zone without transitions, with `time.Date`
worked out. -/
theorem checkTime_eq {α β : Type} (fmt2f : α → β) (newTime t : Time) (val : α)
    (hz : t.loc.tx = []) :
    checkTime fmt2f newTime t val
      = if newTime.Minute = t.Minute then ([⟨t.unix - t.Second, fmt2f val⟩], newTime)
        else ([], t) := by
  unfold checkTime
  simp only [Date_fields t hz, Time.Unix]

/-- Seconds and minute are fields of the clock face. -/
theorem second_minute_range (t : Time) :
    0 ≤ t.Second ∧ t.Second < 60 ∧ 0 ≤ t.Minute ∧ t.Minute < 60 := by
  simp only [Time.Second, Time.Minute, secondsPerMinute, secondsPerHour]
  omega

/-- The wall time of `time.Now()` in a zone of fixed offset. -/
theorem abs_timeNow (off : Int) (c : Clock) :
    (timeNow (FixedZone off) c).abs = c.sec + off + unixToAbsoluteDays * secondsPerDay :=
  rfl

/-- The start of the minute does not decrease when the clock does not. -/
theorem minuteOf_mono (off : Int) (a b : Clock) (h : a.sec ≤ b.sec) :
    minuteOf (FixedZone off) a ≤ minuteOf (FixedZone off) b := by
  simp only [minuteOf, Time.Second, abs_timeNow, secondsPerMinute, secondsPerDay,
    unixToAbsoluteDays]
  omega

/-- Two readings less than 59 minutes apart that show the same minute of the hour lie in
the same minute. -/
theorem same_minute_of_close (off : Int) (l n : Clock)
    (hm : (timeNow (FixedZone off) n).Minute = (timeNow (FixedZone off) l).Minute)
    (h1 : l.sec ≤ n.sec) (h2 : n.sec < l.sec + 3540) :
    minuteOf (FixedZone off) l ≤ n.sec ∧ n.sec < minuteOf (FixedZone off) l + 60 := by
  simp only [minuteOf, Time.Second, Time.Minute, abs_timeNow, secondsPerMinute,
    secondsPerHour, secondsPerDay, unixToAbsoluteDays] at hm ⊢
  omega

/-- In any zone, every line the loop prints carries the rendering of a price that one of
its passes received. -/
theorem mem_bars_price {α β : Type} (fmt2f : α → β) (loc : Location) (streams : Nat)
    (evs : List (Event α)) :
    ∀ (doneCount : Nat) (b : Bar β), b ∈ (mainLoop fmt2f loc streams doneCount evs).bars →
      ∃ l n msg, Event.price l n msg ∈ evs ∧ b.price = fmt2f msg := by
  induction evs with
  | nil => intro dc b hb; simp [mainLoop] at hb
  | cons e es ih =>
    intro dc b hb
    unfold mainLoop at hb
    split_ifs at hb with hdc
    · cases e with
      | price l n msg =>
        simp only [List.mem_append] at hb
        rcases hb with hb | hb
        · unfold checkTime at hb
          split_ifs at hb with hmin
          · simp only [List.mem_singleton] at hb
            exact ⟨l, n, msg, List.mem_cons_self _ _, by rw [hb]⟩
          · simp at hb
        · obtain ⟨l', n', msg', hmem, hb'⟩ := ih dc b hb
          exact ⟨l', n', msg', List.mem_cons_of_mem _ hmem, hb'⟩
      | done l =>
        obtain ⟨l', n', msg', hmem, hb'⟩ := ih (dc + 1) b hb
        exact ⟨l', n', msg', List.mem_cons_of_mem _ hmem, hb'⟩
    · simp at hb

/-- In a zone of fixed offset, every line the loop prints comes from a pass that received
a price while the clock showed the minute of the hour with which the pass began; the
line carries the start of the minute in which the pass began and the rendering of the
price received. -/
theorem mem_bars {α β : Type} (fmt2f : α → β) (off : Int) (streams : Nat)
    (evs : List (Event α)) :
    ∀ (doneCount : Nat) (b : Bar β),
      b ∈ (mainLoop fmt2f (FixedZone off) streams doneCount evs).bars →
      ∃ l n msg, Event.price l n msg ∈ evs ∧
        (timeNow (FixedZone off) n).Minute = (timeNow (FixedZone off) l).Minute ∧
        b = ⟨minuteOf (FixedZone off) l, fmt2f msg⟩ := by
  induction evs with
  | nil => intro dc b hb; simp [mainLoop] at hb
  | cons e es ih =>
    intro dc b hb
    unfold mainLoop at hb
    split_ifs at hb with hdc
    · cases e with
      | price l n msg =>
        simp only [List.mem_append] at hb
        rcases hb with hb | hb
        · rw [checkTime_eq fmt2f _ _ _ rfl] at hb
          split_ifs at hb with hmin
          · simp only [List.mem_singleton] at hb
            exact ⟨l, n, msg, List.mem_cons_self _ _, hmin, by rw [hb]; rfl⟩
          · simp at hb
        · obtain ⟨l', n', msg', hmem, hm, hb'⟩ := ih dc b hb
          exact ⟨l', n', msg', List.mem_cons_of_mem _ hmem, hm, hb'⟩
      | done l =>
        obtain ⟨l', n', msg', hmem, hm, hb'⟩ := ih (dc + 1) b hb
        exact ⟨l', n', msg', List.mem_cons_of_mem _ hmem, hm, hb'⟩
    · simp at hb

/-- In a zone of fixed offset, with a clock that does not go back from one pass to the
next, the timestamps are printed in non-decreasing order. -/
theorem bars_sorted {α β : Type} (fmt2f : α → β) (off : Int) (streams : Nat)
    (evs : List (Event α))
    (h : List.Pairwise (fun a b => a ≤ b) (evs.map fun e => e.lastTime.sec)) :
    ∀ doneCount : Nat, List.Pairwise (fun a b => a ≤ b)
      ((mainLoop fmt2f (FixedZone off) streams doneCount evs).bars.map Bar.minuteStart) := by
  induction evs with
  | nil => intro dc; simp [mainLoop]
  | cons e es ih =>
    intro dc
    simp only [List.map_cons, List.pairwise_cons, List.mem_map, forall_exists_index, and_imp,
      forall_apply_eq_imp_iff₂] at h
    obtain ⟨hhead, htail⟩ := h
    unfold mainLoop
    split_ifs with hdc
    · cases e with
      | price l n msg =>
        simp only [List.map_append, List.pairwise_append]
        refine ⟨?_, ih htail dc, ?_⟩
        · rw [checkTime_eq fmt2f _ _ _ rfl]
          split_ifs <;> simp
        · intro a ha b hb
          simp only [List.mem_map] at ha hb
          obtain ⟨x, hx, rfl⟩ := ha
          obtain ⟨y, hy, rfl⟩ := hb
          rw [checkTime_eq fmt2f _ _ _ rfl] at hx
          split_ifs at hx with hmin
          · simp only [List.mem_singleton] at hx
            obtain ⟨l', n', msg', hmem, -, hy'⟩ := mem_bars fmt2f off streams es dc y hy
            have hle := hhead _ hmem
            rw [hx, hy']
            exact minuteOf_mono off l l' hle
          · simp at hx
      | done l => exact ih htail (dc + 1)
    · simp

/-- The loop run again on the events it consumed does the same. -/
theorem mainLoop_seen {α β : Type} (fmt2f : α → β) (loc : Location) (streams : Nat)
    (evs : List (Event α)) :
    ∀ doneCount : Nat,
      mainLoop fmt2f loc streams doneCount (mainLoop fmt2f loc streams doneCount evs).seen
        = mainLoop fmt2f loc streams doneCount evs := by
  induction evs with
  | nil => intro dc; simp [mainLoop]
  | cons e es ih =>
    intro dc
    by_cases hdc : dc < streams
    · cases e with
      | price l n msg =>
        simp only [mainLoop, hdc, if_true]
        rw [ih dc]
      | done l =>
        simp only [mainLoop, hdc, if_true]
        rw [ih (dc + 1)]
    · simp [mainLoop, hdc]

/-- A loop that meets nothing but signals from `done` prints nothing, counts them up to
`len(streams)` and leaves the others. -/
theorem mainLoop_all_done {α β : Type} (fmt2f : α → β) (loc : Location) (streams : Nat) :
    ∀ (evs : List (Event α)) (doneCount : Nat), (∀ e ∈ evs, e.isDone = true) →
      doneCount ≤ streams → streams - doneCount ≤ evs.length →
      mainLoop fmt2f loc streams doneCount evs
        = ⟨[], streams, evs.take (streams - doneCount)⟩ := by
  intro evs
  induction evs with
  | nil =>
    intro dc _ hle hlen
    simp only [List.length_nil, Nat.le_zero_eq] at hlen
    have : dc = streams := by omega
    simp [mainLoop, this]
  | cons e es ih =>
    intro dc hall hle hlen
    unfold mainLoop
    split_ifs with hdc
    · cases e with
      | price l n msg =>
        have := hall (.price l n msg) (List.mem_cons_self _ _)
        simp [Event.isDone] at this
      | done l =>
        simp only [List.length_cons] at hlen
        rw [ih (dc + 1) (fun e he => hall e (List.mem_cons_of_mem _ he)) (by omega) (by omega)]
        have : streams - dc = (streams - (dc + 1)) + 1 := by omega
        rw [this, List.take_succ_cons]
    · have : streams - dc = 0 := by omega
      have h2 : dc = streams := by omega
      simp [this, h2]

/-- The loop prints at most one line for each price it receives. -/
theorem bars_length_le {α β : Type} (fmt2f : α → β) (loc : Location) (streams : Nat)
    (evs : List (Event α)) :
    ∀ doneCount : Nat, (mainLoop fmt2f loc streams doneCount evs).bars.length
      ≤ ((mainLoop fmt2f loc streams doneCount evs).seen.filter fun e => !e.isDone).length := by
  induction evs with
  | nil => intro dc; simp [mainLoop]
  | cons e es ih =>
    intro dc
    unfold mainLoop
    split_ifs with hdc
    · cases e with
      | price l n msg =>
        have h := ih dc
        have hf : List.filter (fun e => !e.isDone)
            (Event.price l n msg :: (mainLoop fmt2f loc streams dc es).seen)
            = Event.price l n msg
              :: List.filter (fun e => !e.isDone) (mainLoop fmt2f loc streams dc es).seen :=
          List.filter_cons_of_pos rfl
        simp only [List.length_append]
        rw [hf, List.length_cons]
        unfold checkTime
        split_ifs
        · simp only [List.length_singleton]; omega
        · simp only [List.length_nil]; omega
      | done l =>
        have h := ih (dc + 1)
        have hf : List.filter (fun e => !e.isDone)
            (Event.done l :: (mainLoop fmt2f loc streams (dc + 1) es).seen)
            = List.filter (fun e => !e.isDone) (mainLoop fmt2f loc streams (dc + 1) es).seen :=
          List.filter_cons_of_neg (by simp [Event.isDone])
        simp only
        rw [hf]
        exact h
    · simp

/-- What `checkTime` does for every time in a zone of fixed offset: one line and
`newTime` when the two minutes of the hour agree, nothing and `t` otherwise. The line
carries the rendering of `val` and `t` rounded down to its minute. A `newTime` any whole
number of hours away from `t` shows the same minute of the hour. -/
theorem checkTime_fixed_zone {α β : Type} (fmt2f : α → β) (newTime t : Time) (val : α)
    (hz : t.loc.tx = []) :
    checkTime fmt2f newTime t val
        = (if newTime.Minute = t.Minute then ([⟨t.Unix - t.Second, fmt2f val⟩], newTime)
           else ([], t)) ∧
      (t.Unix - t.Second ≤ t.Unix ∧ t.Unix < t.Unix - t.Second + 60 ∧
        (⟨t.Unix - t.Second, 0, t.Location⟩ : Time).Second = 0) ∧
      (0 ≤ t.Minute ∧ t.Minute ≤ 59) ∧
      ∀ (k : Int) (ns : Nat),
        (⟨t.Unix + 3600 * k, ns, t.Location⟩ : Time).Minute = t.Minute ∧
        checkTime fmt2f ⟨t.Unix + 3600 * k, ns, t.Location⟩ t val
          = ([⟨t.Unix - t.Second, fmt2f val⟩], ⟨t.Unix + 3600 * k, ns, t.Location⟩) := by
  have hk : ∀ (k : Int) (ns : Nat),
      (⟨t.Unix + 3600 * k, ns, t.Location⟩ : Time).Minute = t.Minute := by
    intro k ns
    simp only [Time.Minute]
    rw [abs_fixed t hz, abs_fixed ⟨t.Unix + 3600 * k, ns, t.Location⟩ hz]
    simp only [Time.Unix, Time.Location, secondsPerMinute, secondsPerHour, secondsPerDay,
      unixToAbsoluteDays]
    omega
  refine ⟨checkTime_eq fmt2f newTime t val hz, ?_, ?_, ?_⟩
  · have e1 := abs_fixed t hz
    have e2 : ∀ u : Int, (⟨u, 0, t.Location⟩ : Time).abs
        = u + t.loc.first + unixToAbsoluteDays * secondsPerDay :=
      fun u => abs_fixed ⟨u, 0, t.Location⟩ hz
    simp only [Time.Second, e2, e1, Time.Unix, secondsPerMinute, secondsPerDay,
      unixToAbsoluteDays]
    omega
  · have := second_minute_range t
    omega
  · intro k ns
    refine ⟨hk k ns, ?_⟩
    rw [checkTime_eq fmt2f _ t val hz, if_pos (hk k ns)]
    rfl

/-! ### Facts about the goroutines -/

/-- What holds of a stream and its forwarder at every moment: a closed stream has sent
all its prices, and a forwarder that stands at its send on `done`, or is past it, has
seen the channel closed and empty. -/
def Stream.wf {α : Type} (st : Stream α) : Prop :=
  (st.closed = true → st.toSend = []) ∧
    ((st.fwd = .signalling ∨ st.fwd = .finished) → st.closed = true ∧ st.buf = [])

theorem wf_set {α : Type} (l : List (Stream α)) (i : Nat) (st : Stream α)
    (hl : ∀ x ∈ l, x.wf) (hst : st.wf) : ∀ x ∈ l.set i st, x.wf := by
  intro x hx
  rcases List.mem_or_eq_of_mem_set hx with h | h
  · exact hl x h
  · exact h ▸ hst

/-- No step breaks `Stream.wf`. -/
theorem step_wf {α : Type} (s s' : Sys α) (a : Step) (h : step s a = some s')
    (hs : ∀ st ∈ s.streams, st.wf) : ∀ st ∈ s'.streams, st.wf := by
  cases a with
  | streamSend i =>
    simp only [step] at h
    split at h
    · rename_i st hst
      have hw := hs st (List.getElem?_mem hst)
      split at h
      · rename_i p rest hp
        split_ifs at h
        simp only [Option.some.injEq] at h
        subst h
        refine wf_set _ _ _ hs ⟨?_, ?_⟩
        · intro hc
          have := hw.1 hc
          simp [hp] at this
        · intro hf
          have := hw.1 (hw.2 hf).1
          simp [hp] at this
      · simp at h
    · simp at h
  | streamClose i =>
    simp only [step] at h
    split at h
    · rename_i st hst
      have hw := hs st (List.getElem?_mem hst)
      split_ifs at h with hc
      simp only [Option.some.injEq] at h
      subst h
      simp only [Bool.and_eq_true, List.isEmpty_iff, Bool.not_eq_true'] at hc
      exact wf_set _ _ _ hs ⟨fun _ => hc.1, fun hf => ⟨rfl, (hw.2 hf).2⟩⟩
    · simp at h
  | fwdRecv i =>
    simp only [step] at h
    split at h
    · rename_i st hst
      split at h
      · simp only [Option.some.injEq] at h
        subst h
        have hw := hs st (List.getElem?_mem hst)
        refine wf_set _ _ _ hs ⟨hw.1, ?_⟩
        intro hf
        simp at hf
      · simp at h
    · simp at h
  | fwdExit i =>
    simp only [step] at h
    split at h
    · rename_i st hst
      split at h
      · rename_i hfwd hbuf
        split_ifs at h with hc
        simp only [Option.some.injEq] at h
        subst h
        have hw := hs st (List.getElem?_mem hst)
        exact wf_set _ _ _ hs ⟨hw.1, fun _ => ⟨hc, hbuf⟩⟩
      · simp at h
    · simp at h
  | fwdSend i =>
    simp only [step] at h
    split at h
    · rename_i st hst
      split at h
      · split_ifs at h
        simp only [Option.some.injEq] at h
        subst h
        have hw := hs st (List.getElem?_mem hst)
        refine wf_set _ _ _ hs ⟨hw.1, ?_⟩
        intro hf
        simp at hf
      · simp at h
    · simp at h
  | mainTop =>
    simp only [step] at h
    split at h
    · split_ifs at h
      · split at h <;> (simp only [Option.some.injEq] at h; subst h; exact hs)
      · simp only [Option.some.injEq] at h; subst h; exact hs
    · simp at h
  | mainAgg =>
    simp only [step] at h
    split at h
    · simp only [Option.some.injEq] at h; subst h; exact hs
    · simp at h
  | mainDone i =>
    simp only [step] at h
    split at h
    · rename_i st hpc hst
      split at h
      · rename_i hfwd
        simp only [Option.some.injEq] at h
        subst h
        have hw := hs st (List.getElem?_mem hst)
        exact wf_set _ _ _ hs ⟨hw.1, fun _ => hw.2 (Or.inl hfwd)⟩
      · simp at h
    · simp at h

/-- In every state that a schedule reaches from the beginning, a forwarder that stands at
its send on `done`, or is past it, has left nothing behind: its stream has sent all its
prices and closed, and the channel is empty. -/
theorem exec_wf {α : Type} (sched : List Step) :
    ∀ s s' : Sys α, exec s sched = some s' → (∀ st ∈ s.streams, st.wf) →
      ∀ st ∈ s'.streams, st.wf := by
  induction sched with
  | nil =>
    intro s s' h hs
    simp only [exec, Option.some.injEq] at h
    exact h ▸ hs
  | cons a rest ih =>
    intro s s' h hs
    simp only [exec] at h
    split at h
    · rename_i s1 hstep
      exact ih s1 s' h (step_wf s s1 a hstep hs)
    · simp at h

theorem initSys_wf {α : Type} (prices : List (List α)) : ∀ st ∈ (initSys prices).streams, st.wf := by
  intro st hst
  simp only [initSys, List.mem_map] at hst
  obtain ⟨ps, -, rfl⟩ := hst
  simp [Stream.wf]

/-! ## The claims -/

/-- Claim C1, on the code: three streams, and three prices received within five seconds
in minute 1577836800. All three are printed, so the lines carry the same timestamp and
the timestamps do not strictly increase. -/
theorem c1_same_minute_printed_twice :
    printed twoDecimals utc 3
      [Event.price ⟨1577836800, 0⟩ ⟨1577836801, 0⟩ (100 : ℚ),
       .price ⟨1577836801, 500⟩ ⟨1577836803, 0⟩ 101,
       .price ⟨1577836803, 500⟩ ⟨1577836805, 0⟩ 102,
       .done ⟨1577836805, 500⟩, .done ⟨1577836806, 0⟩, .done ⟨1577836807, 0⟩]
      = [⟨1577836800, ⟨false, 10000⟩⟩, ⟨1577836800, ⟨false, 10100⟩⟩,
         ⟨1577836800, ⟨false, 10200⟩⟩] := by
  decide

/-- Claim C2 as stated fails: two streams, 100 and 200 received in minute 0. The lines
printed are `0 100.00` and `0 200.00`; no line carries the median, `150.00`. -/
theorem c2_no_median :
    printed twoDecimals utc 2
        [Event.price ⟨0, 0⟩ ⟨1, 0⟩ (100 : ℚ), .price ⟨1, 500⟩ ⟨2, 0⟩ 200,
         .done ⟨2, 500⟩, .done ⟨3, 0⟩]
        = [⟨0, ⟨false, 10000⟩⟩, ⟨0, ⟨false, 20000⟩⟩] ∧
      twoDecimals 150 = ⟨false, 15000⟩ ∧
      ∀ b ∈ printed twoDecimals utc 2
        [Event.price ⟨0, 0⟩ ⟨1, 0⟩ (100 : ℚ), .price ⟨1, 500⟩ ⟨2, 0⟩ 200,
         .done ⟨2, 500⟩, .done ⟨3, 0⟩], b.price ≠ twoDecimals 150 := by
  decide

/-- Claim C2, amended: the price on every printed line is the rendering by `%.2f` of one
of the prices that the loop received from `agg`; prices of different streams are never
combined. When the prices received are 100 and 200, every line carries the rendering of
100 or that of 200. This holds in every zone and for every rendering `fmt2f`. -/
theorem c2_price_is_a_received_price {α β : Type} (fmt2f : α → β) (loc : Location)
    (streams : Nat) (evs : List (Event α)) (b : Bar β)
    (hb : b ∈ printed fmt2f loc streams evs) :
    (∃ l n msg, Event.price l n msg ∈ (mainLoop fmt2f loc streams 0 evs).seen ∧
        b.price = fmt2f msg) ∧
      ∀ p q : α, (∀ l n msg, Event.price l n msg ∈ (mainLoop fmt2f loc streams 0 evs).seen →
        msg = p ∨ msg = q) → b.price = fmt2f p ∨ b.price = fmt2f q := by
  have key : ∃ l n msg, Event.price l n msg ∈ (mainLoop fmt2f loc streams 0 evs).seen ∧
      b.price = fmt2f msg := by
    unfold printed at hb
    rw [← mainLoop_seen] at hb
    exact mem_bars_price fmt2f loc streams _ 0 b hb
  refine ⟨key, ?_⟩
  intro p q h
  obtain ⟨l, n, msg, hmem, hprice⟩ := key
  rcases h l n msg hmem with rfl | rfl
  · exact Or.inl hprice
  · exact Or.inr hprice

theorem c2_price_is_a_received_price_witness :
    (⟨0, ⟨false, 20000⟩⟩ : Bar Decimal2) ∈ printed twoDecimals utc 2
        [Event.price ⟨0, 0⟩ ⟨1, 0⟩ (100 : ℚ), .price ⟨1, 500⟩ ⟨2, 0⟩ 200,
         .done ⟨2, 500⟩, .done ⟨3, 0⟩] ∧
      ((∃ l n msg, Event.price l n msg ∈ (mainLoop twoDecimals utc 2 0
        [Event.price ⟨0, 0⟩ ⟨1, 0⟩ (100 : ℚ), .price ⟨1, 500⟩ ⟨2, 0⟩ 200,
         .done ⟨2, 500⟩, .done ⟨3, 0⟩]).seen ∧
          (⟨false, 20000⟩ : Decimal2) = twoDecimals msg) ∧
      ∀ p q : ℚ, (∀ l n msg, Event.price l n msg ∈ (mainLoop twoDecimals utc 2 0
        [Event.price ⟨0, 0⟩ ⟨1, 0⟩ (100 : ℚ), .price ⟨1, 500⟩ ⟨2, 0⟩ 200,
         .done ⟨2, 500⟩, .done ⟨3, 0⟩]).seen → msg = p ∨ msg = q) →
        (⟨false, 20000⟩ : Decimal2) = twoDecimals p ∨
          (⟨false, 20000⟩ : Decimal2) = twoDecimals q) :=
  ⟨by decide, c2_price_is_a_received_price twoDecimals utc 2 _ ⟨0, ⟨false, 20000⟩⟩ (by decide)⟩

/-- Claim C3, on the code: one stream, the prices 100, 102 and 104 received at 0, 65 and
130 seconds, every pass of the loop beginning when the one before has ended. The only
line printed is `0 100.00`: 102 and 104, each the last price of its minute, are not
printed, because the passes that received them began in the minute before. -/
theorem c3_scenario_a_prints_one_bar :
    printed twoDecimals utc 1
        [Event.price ⟨0, 0⟩ ⟨0, 100⟩ (100 : ℚ), .price ⟨0, 200⟩ ⟨65, 0⟩ 102,
         .price ⟨65, 100⟩ ⟨130, 0⟩ 104, .done ⟨130, 100⟩]
        = [⟨0, ⟨false, 10000⟩⟩] ∧
      printed twoDecimals utc 1
        [Event.price ⟨0, 0⟩ ⟨0, 100⟩ (100 : ℚ), .price ⟨0, 200⟩ ⟨65, 0⟩ 102,
         .price ⟨65, 100⟩ ⟨130, 0⟩ 104, .done ⟨130, 100⟩]
        ≠ [⟨0, twoDecimals 100⟩, ⟨60, twoDecimals 102⟩, ⟨120, twoDecimals 104⟩] := by
  decide

/-- Claim C4 as stated fails: for a time in a zone thirty seconds east of UTC the printed
timestamp, the start of the minute in that zone, is not a multiple of 60. -/
theorem c4_zone_with_odd_seconds :
    (checkTime twoDecimals ⟨1577836805, 0, FixedZone 30⟩ ⟨1577836800, 0, FixedZone 30⟩
        (100 : ℚ)).1
        = [⟨1577836770, ⟨false, 10000⟩⟩] ∧
      (1577836770 : Int) % 60 ≠ 0 := by
  decide

/-- Claim C4, amended: every timestamp that `checkTime` prints for a time `t` in a zone
of fixed offset is in epoch seconds and is the start of the minute that contains `t` on
the clock face of that zone: it is at most `t.Unix()`, less than 60 seconds before it,
and shows zero seconds in that zone. When the offset of the zone from UTC is a whole
number of minutes, the timestamp is a multiple of 60. -/
theorem c4_printed_is_minute_start {α β : Type} (fmt2f : α → β) (newTime t : Time)
    (val : α) (b : Bar β) (hz : t.Location.tx = [])
    (hb : b ∈ (checkTime fmt2f newTime t val).1) :
    b.minuteStart ≤ t.Unix ∧ t.Unix < b.minuteStart + 60 ∧
      (⟨b.minuteStart, 0, t.Location⟩ : Time).Second = 0 ∧
      (t.Location.first % 60 = 0 → b.minuteStart % 60 = 0) := by
  rw [checkTime_eq fmt2f newTime t val hz] at hb
  split_ifs at hb with hmin
  · simp only [List.mem_singleton] at hb
    subst hb
    have hz' : t.loc.tx = [] := hz
    have e1 := abs_fixed t hz'
    have e2 : ∀ u : Int, (⟨u, 0, t.loc⟩ : Time).abs
        = u + t.loc.first + unixToAbsoluteDays * secondsPerDay :=
      fun u => abs_fixed ⟨u, 0, t.loc⟩ hz'
    simp only [Time.Location, Time.Second, e2, e1, Time.Unix, secondsPerMinute,
      secondsPerDay, unixToAbsoluteDays]
    omega
  · simp at hb

theorem c4_printed_is_minute_start_witness :
    (⟨1577836803, 0, utc⟩ : Time).Location.tx = [] ∧
      (⟨1577836800, ⟨false, 10000⟩⟩ : Bar Decimal2)
        ∈ (checkTime twoDecimals ⟨1577836805, 0, utc⟩ ⟨1577836803, 0, utc⟩ (100 : ℚ)).1 ∧
      ((1577836800 : Int) ≤ (⟨1577836803, 0, utc⟩ : Time).Unix ∧
        (⟨1577836803, 0, utc⟩ : Time).Unix < 1577836800 + 60 ∧
        (⟨1577836800, 0, (⟨1577836803, 0, utc⟩ : Time).Location⟩ : Time).Second = 0 ∧
        ((⟨1577836803, 0, utc⟩ : Time).Location.first % 60 = 0 →
          (1577836800 : Int) % 60 = 0)) :=
  ⟨rfl, by decide,
    c4_printed_is_minute_start twoDecimals ⟨1577836805, 0, utc⟩ ⟨1577836803, 0, utc⟩
      (100 : ℚ) ⟨1577836800, ⟨false, 10000⟩⟩ rfl (by decide)⟩

/-- Claim C5 as stated fails: when the wall clock is set back a minute between two passes
of the loop, the second line carries a smaller timestamp than the first. -/
theorem c5_clock_set_back :
    printed twoDecimals utc 3
        [Event.price ⟨1577836860, 0⟩ ⟨1577836861, 0⟩ (100 : ℚ),
         .price ⟨1577836801, 0⟩ ⟨1577836802, 0⟩ 101]
        = [⟨1577836860, ⟨false, 10000⟩⟩, ⟨1577836800, ⟨false, 10100⟩⟩] ∧
      ¬ List.Chain' (fun a b : Int => a ≤ b) [1577836860, 1577836800] := by
  refine ⟨by decide, ?_⟩
  intro h
  have h2 : (1577836860 : Int) ≤ 1577836800 := List.Chain'.rel_head h
  exact absurd h2 (by decide)

/-- Claim C5, amended: in every run, in a local zone of fixed offset, in which the wall
clock, read at the beginning of each pass of the loop, never goes back from one pass to
the next, each printed timestamp is greater than or equal to the one printed before
it. -/
theorem c5_non_decreasing {α β : Type} (fmt2f : α → β) (off : Int) (streams : Nat)
    (evs : List (Event α))
    (h : List.Chain' (fun a b => a ≤ b)
      ((mainLoop fmt2f (FixedZone off) streams 0 evs).seen.map fun e => e.lastTime.sec)) :
    List.Chain' (fun a b => a ≤ b)
      ((printed fmt2f (FixedZone off) streams evs).map Bar.minuteStart) := by
  rw [List.chain'_iff_pairwise] at h ⊢
  unfold printed
  rw [← mainLoop_seen]
  exact bars_sorted fmt2f off streams _ h 0

theorem c5_non_decreasing_witness :
    List.Chain' (fun a b => a ≤ b)
        ((mainLoop twoDecimals (FixedZone 0) 3 0
          [Event.price ⟨1577836800, 0⟩ ⟨1577836801, 0⟩ (100 : ℚ),
           .price ⟨1577836859, 0⟩ ⟨1577836861, 0⟩ 101,
           .price ⟨1577836861, 0⟩ ⟨1577836862, 0⟩ 102]).seen.map fun e => e.lastTime.sec) ∧
      List.Chain' (fun a b => a ≤ b)
        ((printed twoDecimals (FixedZone 0) 3
          [Event.price ⟨1577836800, 0⟩ ⟨1577836801, 0⟩ (100 : ℚ),
           .price ⟨1577836859, 0⟩ ⟨1577836861, 0⟩ 101,
           .price ⟨1577836861, 0⟩ ⟨1577836862, 0⟩ 102]).map Bar.minuteStart) :=
  ⟨List.Chain'.cons (by decide) (List.Chain'.cons (by decide) (List.chain'_singleton _)),
    c5_non_decreasing twoDecimals 0 3 _
      (List.Chain'.cons (by decide) (List.Chain'.cons (by decide) (List.chain'_singleton _)))⟩

/-- Claim C6, on the code: three streams of one price each. The loop receives 100 and 101
and the signals of the first two forwarders. It then finds `agg` empty in its first
`select`; before it reaches the second, the third forwarder puts 102 into `agg` and
comes to stand at its send on `done`. The second `select`, with both cases ready, takes
the signal: `doneCount` is 3 and the loop exits with 102 unread in `agg`. -/
theorem c6_price_left_in_agg :
    exec (initSys [[(100 : ℚ)], [101], [102]])
      [.streamSend 0, .fwdRecv 0, .fwdSend 0, .mainTop, .streamClose 0, .fwdExit 0,
       .mainTop, .mainDone 0,
       .streamSend 1, .fwdRecv 1, .fwdSend 1, .mainTop, .streamClose 1, .fwdExit 1,
       .mainTop, .mainDone 1,
       .streamSend 2, .streamClose 2, .fwdRecv 2,
       .mainTop, .fwdSend 2, .fwdExit 2, .mainDone 2, .mainTop]
      = some
        { streams := [⟨[], true, [], .finished⟩, ⟨[], true, [], .finished⟩,
            ⟨[], true, [], .finished⟩]
          agg := [102]
          pc := .exited
          doneCount := 3
          received := [100, 101] } := by
  decide

/-- Claim C7, on the code: three prices received within minute 1577836860 are all printed,
though only 102 is the last of its minute; and 103, the only and so the last price of
minute 1577836920, is not printed, because the pass that received it began in the
minute before. -/
theorem c7_not_only_the_last_of_the_minute :
    printed twoDecimals utc 3
      [Event.price ⟨1577836860, 0⟩ ⟨1577836861, 0⟩ (100 : ℚ),
       .price ⟨1577836861, 500⟩ ⟨1577836863, 0⟩ 101,
       .price ⟨1577836863, 500⟩ ⟨1577836865, 0⟩ 102,
       .price ⟨1577836865, 500⟩ ⟨1577836921, 0⟩ 103,
       .done ⟨1577836921, 500⟩, .done ⟨1577836985, 0⟩, .done ⟨1577836986, 0⟩]
      = [⟨1577836860, ⟨false, 10000⟩⟩, ⟨1577836860, ⟨false, 10100⟩⟩,
         ⟨1577836860, ⟨false, 10200⟩⟩] := by
  decide

/-- Claim C8 as stated fails: a price that arrives a whole hour after the pass of the loop
began is printed under the minute in which the pass began, a minute in which no price
was received. -/
theorem c8_bar_for_a_minute_without_price :
    printed twoDecimals utc 3 [Event.price ⟨1577836800, 0⟩ ⟨1577840400, 0⟩ (100 : ℚ)]
        = [⟨1577836800, ⟨false, 10000⟩⟩] ∧
      ¬ ((1577836800 : Int) ≤ 1577840400 ∧ (1577840400 : Int) < 1577836800 + 60) := by
  decide

/-- Claim C8, amended: if every stream closes without having delivered a price, the loop
consumes exactly `len(streams)` signals from `done`, prints no line and stops. In every
run, a line is printed only for a price received; and when, in a local zone of fixed
offset, each price is received at or after the beginning of its pass of the loop and
less than 59 minutes after it, a minute in which no price was received gets no line. -/
theorem c8_no_bar_without_price {α β : Type} (fmt2f : α → β) (loc : Location)
    (streams : Nat) (evs : List (Event α)) :
    ((∀ e ∈ evs, e.isDone = true) → streams ≤ evs.length →
        mainLoop fmt2f loc streams 0 evs = ⟨[], streams, evs.take streams⟩) ∧
      (printed fmt2f loc streams evs).length
        ≤ ((mainLoop fmt2f loc streams 0 evs).seen.filter fun e => !e.isDone).length ∧
      (loc.tx = [] → ∀ M : Int,
        (∀ l n msg, Event.price l n msg ∈ (mainLoop fmt2f loc streams 0 evs).seen →
          l.sec ≤ n.sec ∧ n.sec < l.sec + 3540) →
        (∀ l n msg, Event.price l n msg ∈ (mainLoop fmt2f loc streams 0 evs).seen →
          ¬ (M ≤ n.sec ∧ n.sec < M + 60)) →
        ∀ b ∈ printed fmt2f loc streams evs, b.minuteStart ≠ M) := by
  refine ⟨fun hall hlen => ?_, ?_, ?_⟩
  · simpa using mainLoop_all_done fmt2f loc streams evs 0 hall (Nat.zero_le _)
      (by simpa using hlen)
  · exact bars_length_le fmt2f loc streams evs 0
  · intro hz M hclose hnone b hb hM
    obtain ⟨off, tx⟩ := loc
    simp only at hz
    subst hz
    unfold printed at hb
    rw [← mainLoop_seen] at hb
    obtain ⟨l, n, msg, hmem, hmin, rfl⟩ := mem_bars fmt2f off streams _ 0 b hb
    obtain ⟨h1, h2⟩ := hclose l n msg hmem
    have := same_minute_of_close off l n hmin h1 h2
    simp only at hM
    exact hnone l n msg hmem (by omega)

theorem c8_no_bar_without_price_witness :
    ((∀ e ∈ [Event.done ⟨1577836800, 0⟩, Event.done ⟨1577836801, 0⟩,
          (Event.done ⟨1577836802, 0⟩ : Event ℚ)], e.isDone = true) ∧
      3 ≤ [Event.done ⟨1577836800, 0⟩, Event.done ⟨1577836801, 0⟩,
          (Event.done ⟨1577836802, 0⟩ : Event ℚ)].length ∧
      mainLoop twoDecimals utc 3 0 [Event.done ⟨1577836800, 0⟩,
          Event.done ⟨1577836801, 0⟩, (Event.done ⟨1577836802, 0⟩ : Event ℚ)]
        = ⟨[], 3, [.done ⟨1577836800, 0⟩, .done ⟨1577836801, 0⟩, .done ⟨1577836802, 0⟩]⟩) ∧
    (utc.tx = [] ∧
      (∀ l n msg, Event.price l n msg ∈ (mainLoop twoDecimals utc 3 0
          [Event.price ⟨1577836800, 0⟩ ⟨1577836801, 0⟩ (100 : ℚ)]).seen →
        l.sec ≤ n.sec ∧ n.sec < l.sec + 3540) ∧
      (∀ l n msg, Event.price l n msg ∈ (mainLoop twoDecimals utc 3 0
          [Event.price ⟨1577836800, 0⟩ ⟨1577836801, 0⟩ (100 : ℚ)]).seen →
        ¬ ((1577836860 : Int) ≤ n.sec ∧ n.sec < 1577836860 + 60)) ∧
      ∀ b ∈ printed twoDecimals utc 3
          [Event.price ⟨1577836800, 0⟩ ⟨1577836801, 0⟩ (100 : ℚ)],
        b.minuteStart ≠ 1577836860) := by
  have hseen : (mainLoop twoDecimals utc 3 0
      [Event.price ⟨1577836800, 0⟩ ⟨1577836801, 0⟩ (100 : ℚ)]).seen
      = [Event.price ⟨1577836800, 0⟩ ⟨1577836801, 0⟩ (100 : ℚ)] := by decide
  have h1 : ∀ l n msg, Event.price l n msg ∈ (mainLoop twoDecimals utc 3 0
      [Event.price ⟨1577836800, 0⟩ ⟨1577836801, 0⟩ (100 : ℚ)]).seen →
      l.sec ≤ n.sec ∧ n.sec < l.sec + 3540 := by
    intro l n msg h
    rw [hseen] at h
    simp only [List.mem_singleton, Event.price.injEq] at h
    obtain ⟨rfl, rfl, -⟩ := h
    decide
  have h2 : ∀ l n msg, Event.price l n msg ∈ (mainLoop twoDecimals utc 3 0
      [Event.price ⟨1577836800, 0⟩ ⟨1577836801, 0⟩ (100 : ℚ)]).seen →
      ¬ ((1577836860 : Int) ≤ n.sec ∧ n.sec < 1577836860 + 60) := by
    intro l n msg h
    rw [hseen] at h
    simp only [List.mem_singleton, Event.price.injEq] at h
    obtain ⟨rfl, rfl, -⟩ := h
    decide
  exact ⟨⟨by decide, by decide,
      (c8_no_bar_without_price twoDecimals utc 3 _).1 (by decide) (by decide)⟩,
    rfl, h1, h2, (c8_no_bar_without_price twoDecimals utc 3 _).2.2 rfl 1577836860 h1 h2⟩

/-- Claim C10, on the code: the local zone is America/New_York and `t` is 1572762600, the
second 01:30:00 of November 3, 2019, in the hour that the clock shows twice; `newTime`
is five seconds later and the price is 801/8, that is 100.125. The minutes of the hour agree, so one
line is printed and `newTime` returned; the price is written `100.12`. But `time.Date`
takes the fields 01:30 for their first occurrence: the timestamp printed is 1572759000,
an hour before `t`, whereas `t` stands at the start of its minute and rounded down is
1572762600. -/
theorem c10_repeated_hour :
    ((⟨1572762600, 0, newYork2019⟩ : Time).Hour = 1 ∧
      (⟨1572762600, 0, newYork2019⟩ : Time).Minute = 30 ∧
      (⟨1572762600, 0, newYork2019⟩ : Time).Second = 0) ∧
    ((⟨1572762605, 0, newYork2019⟩ : Time).Minute = 30) ∧
    checkTime twoDecimals ⟨1572762605, 0, newYork2019⟩ ⟨1572762600, 0, newYork2019⟩
        (mkRat 801 8)
      = ([⟨1572759000, ⟨false, 10012⟩⟩], ⟨1572762605, 0, newYork2019⟩) ∧
    (1572759000 : Int) = 1572762600 - 3600 := by
  decide

end OccamFi
